import Mathlib

/-!
Shallow embedding of `src/python/split_bam.py` (class `SplitBam`): a BAM
demultiplexer that routes each alignment record, by its `CB` tag, into a
per-barcode output archive.  Machinery embedded here:

* `TagValue`, `Record` — the alignment-record model (§3 of the design):
  reference name, position, alignment span, mapping quality, flags,
  sequence, qualities and the tag mapping.
* `lastLookup` — Python `dict` construction from a pair list
  (`dict(read.tags)`, `{name: length for ...}`): later entries override
  earlier ones.
* `getBarcodes` — `SplitBam.__get_barcodes` (lines 30–32): column 0 of the
  headerless delimited table, set semantics.
* `resolveKey` / `writeTo` — `SplitBam.__get_file_for_tag` (lines 78–95):
  the memoized create-on-first-use output registry, plus `outfile.write`.
* `routeOf` / `stepRead` / `splitBamPass` — the body of the `for read in
  self.bam.fetch()` loop of `SplitBam.split_bam` (lines 97–112).
* `closeLoop` — the `try: file.close() except: warnings(...)` drain
  (lines 114–119 and 146–151), with the handler's own `TypeError`.
* `runAux` / `splitBamRun` — `split_bam` as a whole, with decode failures
  of the input iterator made explicit (`Except Unit Record`).
* `fetchRegion` / `mainTraversal` / `specRegionTraversal` — the
  region-bounded loop of `SplitBam.main` (lines 129–143) over
  `self.chr_lengths` (lines 43–50).
* `chooseChromosomes` — the truthiness test of `__init__` (lines 19–22).
-/

namespace SplitBamModel

/-- A BAM auxiliary tag value: string-, integer- or array-typed (§4.1). -/
inductive TagValue where
  | str (s : String)
  | int (n : Int)
  | arr (ns : List Int)
deriving DecidableEq, Repr

/-- One alignment record: reference name (`none` when unmapped), 0-based
position, reference span of the alignment, mapping quality, flag word,
sequence, base qualities, and the auxiliary tag list in file order. -/
structure Record where
  refName : Option String
  pos : Nat
  alnLen : Nat
  mapq : Nat
  flag : Nat
  seq : String
  qual : List Nat
  tags : List (String × TagValue)
deriving DecidableEq, Repr

/-- Lookup in an association list with Python `dict(pairs)` semantics:
a later binding of the same key overrides an earlier one. -/
def lastLookup {α : Type} : List (String × α) → String → Option α
  | [], _ => none
  | e :: t, key =>
    match lastLookup t key with
    | some v => some v
    | none => if e.1 = key then some e.2 else none

/-- Lines 30–32 (`__get_barcodes`): the delimited table is read with
`header=None` (no header row assumed or skipped), column 0 is taken and
collapsed to a set.  A parsed row is its first field plus the rest. -/
def getBarcodes (rows : List (String × List String)) : List String :=
  (rows.map Prod.fst).dedup

/-- Line 105 / 135: `tags['CB'] in self.barcodes` — exact match of a
string-typed tag value against the barcode set; a non-string value is
never a member of a set of strings. -/
def memBarcodes (v : TagValue) (bs : List String) : Bool :=
  match v with
  | TagValue.str s => s ∈ bs
  | _ => false

/-- The output registry: routing key ↦ records written to that stream,
entries in creation order (the `tag_to_file_map` dict of lines 99/128). -/
abbrev Registry := List (String × List Record)

def keyMem (reg : Registry) (k : String) : Bool :=
  reg.any (fun e => e.1 = k)

/-- Lines 90–95 (`__get_file_for_tag`): create the stream for `k` on first
resolution (`tag_to_file_map[tag_value] = file_handle`), otherwise leave
the registry unchanged and hand back the existing entry. -/
def resolveKey (reg : Registry) (k : String) : Registry :=
  if keyMem reg k then reg else reg ++ [(k, [])]

/-- `outfile.write(read)`: append `r` to the stream keyed `k`. -/
def appendTo (reg : Registry) (k : String) (r : Record) : Registry :=
  reg.map (fun e => if e.1 = k then (e.1, e.2 ++ [r]) else e)

/-- Lines 106–107 / 111–112: resolve the stream for `k`, then write. -/
def writeTo (reg : Registry) (k : String) (r : Record) : Registry :=
  appendTo (resolveKey reg k) k r

/-- Registry keys in creation order. -/
def regKeys (reg : Registry) : List String := reg.map Prod.fst

/-- The records so far written to the stream keyed `k` (empty when the
stream was never created). -/
def streamOf (reg : Registry) (k : String) : List Record :=
  (lastLookup reg k).getD []

/-- Lines 103–112: the routing decision for one record.  `some k` means
"written to the stream keyed `k`", `none` means discarded:
`dict(read.tags)` is consulted for `'CB'`; a member of the barcode set
routes to its own literal string, a non-member is discarded, an absent
tag routes to the sentinel `"undetermined"`. -/
def routeOf (bs : List String) (r : Record) : Option String :=
  match lastLookup r.tags "CB" with
  | some (TagValue.str s) => if s ∈ bs then some s else none
  | some _ => none
  | none => some "undetermined"

/-- Driver state of `split_bam`: `read_count`, the registry, and the
trace of records the `for` loop has iterated (in iteration order). -/
structure DriverState where
  readCount : Nat
  registry : Registry
  observed : List Record
deriving DecidableEq, Repr

def initState : DriverState := ⟨0, [], []⟩

/-- One iteration of the loop of lines 101–112: count the record, then
route it per `routeOf`. -/
def stepRead (bs : List String) (st : DriverState) (r : Record) : DriverState :=
  let st1 : DriverState :=
    { st with readCount := st.readCount + 1, observed := st.observed ++ [r] }
  match routeOf bs r with
  | some k => { st1 with registry := writeTo st1.registry k r }
  | none => st1

/-- Modelled from the spec: the external reader's linear full-stream
traversal (§4.3 mode (a)) — every record of the archive in storage order,
regardless of coordinate or mapping status.  The archive reader itself is
an external collaborator (§1, §6), so the traversal is the input list. -/
def fetchLinear (input : List Record) : List Record := input

/-- The routing pass of `split_bam` over an already-decoded stream. -/
def splitBamPass (bs : List String) (input : List Record) : DriverState :=
  (fetchLinear input).foldl (stepRead bs) initState

/-- An open output handle at finalization time: its key, and whether its
`close()` call raises. -/
structure Handle where
  key : String
  closeRaises : Bool
deriving DecidableEq, Repr

/-- Lines 114–119 (also 146–151): `for file in tag_to_file_map.values():
try: file.close() except: warnings('error closing file ' + file)`.
When `close()` raises, the bare `except` handler evaluates
`'error closing file ' + file`, which raises `TypeError` (a `str` cannot
be concatenated with an `AlignmentFile`; calling the `warnings` module
would raise `TypeError` too), so the handler's exception propagates and
the loop stops.  Returns the keys whose close was attempted, and the
error that escaped the loop, if any. -/
def closeLoop : List Handle → List String × Option String
  | [] => ([], none)
  | h :: t =>
    if h.closeRaises then
      ([h.key], some "TypeError")
    else
      let rest := closeLoop t
      (h.key :: rest.1, rest.2)

inductive RunError where
  | decodeError
  | closeTypeError
deriving DecidableEq, Repr

/-- Outcome of a full `split_bam()` call: the driver state when control
left the loop, the keys whose close was attempted, and the error that
propagated out of the method, if any. -/
structure RunResult where
  finalState : DriverState
  closeAttempted : List String
  err : Option RunError
deriving DecidableEq, Repr

/-- Lines 97–121 with decode failures explicit: each item of the input is
either a decoded record or a decode error.  A decode error propagates out
of the `for` loop at once — the close loop of lines 114–119 is *after*
the loop, not in a `finally`, so no output stream is closed on that path.
On normal completion the close loop runs over the registry's handles;
`closeRaises` says, per key, whether that stream's `close()` raises. -/
def runAux (bs : List String) (closeRaises : String → Bool) (st : DriverState) :
    List (Except Unit Record) → RunResult
  | [] =>
    let c := closeLoop (st.registry.map (fun e => Handle.mk e.1 (closeRaises e.1)))
    ⟨st, c.1, c.2.map (fun _ => RunError.closeTypeError)⟩
  | Except.ok r :: t => runAux bs closeRaises (stepRead bs st r) t
  | Except.error _ :: _ => ⟨st, [], some RunError.decodeError⟩

def splitBamRun (bs : List String) (closeRaises : String → Bool)
    (input : List (Except Unit Record)) : RunResult :=
  runAux bs closeRaises initState input

/-- Modelled from the spec: the external reader's region fetch
(`self.bam.fetch(chrom, start, end)`, §4.3 mode (b), glossary) yields
exactly the records overlapping `[start, stop)` on the named reference,
in storage order. -/
def fetchRegion (input : List Record) (chrom : String) (start stop : Nat) :
    List Record :=
  input.filter (fun r =>
    decide (r.refName = some chrom) && decide (start < r.pos + r.alnLen) &&
      decide (r.pos < stop))

/-- Lines 129–143 (`main`): for each chromosome in the caller-supplied
order, look its length up in the `chr_lengths` dict (lines 43–50, built
from the header's reference table; a missing name is a `KeyError`,
modelled `none`) and traverse `fetch(chrom, 0, reflen)`. -/
def mainTraversal (hdr : List (String × Nat)) (cs : List String)
    (input : List Record) : Option (List Record) :=
  match cs with
  | [] => some []
  | c :: t =>
    match lastLookup hdr c with
    | none => none
    | some len =>
      match mainTraversal hdr t input with
      | none => none
      | some rest => some (fetchRegion input c 0 len ++ rest)

/-- The spec's words for the region-bounded traversal (§4.3 mode (b)):
for each named reference in the caller-supplied order, exactly the
records overlapping `[0, reference_length)` of that sequence, where
`reference_length` is the length the input header's reference table
records for that name. -/
def specRegionTraversal (hdr : List (String × Nat)) (cs : List String)
    (input : List Record) : List Record :=
  match cs with
  | [] => []
  | c :: t =>
      fetchRegion input c 0 ((lastLookup hdr c).getD 0)
        ++ specRegionTraversal hdr t input

/-- Lines 19–22 (`__init__`): `if chromosomes:` — a falsy argument
(`None`, or the empty list) is replaced by the header's reference names
(`__get_chr_names`, lines 58–63). -/
def chooseChromosomes (arg : Option (List String)) (hdrNames : List String) :
    List String :=
  match arg with
  | some (c :: cs) => c :: cs
  | _ => hdrNames

/-- Line 165 (`parse_args`): the documented default chromosome list,
`list(map(str, range(1, 23))) + ['chrM']`. -/
def defaultChromosomes : List String :=
  ((List.range 22).map (fun i => toString (i + 1))) ++ ["chrM"]

/-- All resolutions of a pass, applied to the initially empty registry. -/
def resolveAll (ks : List String) : Registry :=
  ks.foldl resolveKey []

section LookupLemmas

variable {α : Type}

theorem lastLookup_nil (k : String) : lastLookup ([] : List (String × α)) k = none := rfl

theorem lastLookup_cons (e : String × α) (t : List (String × α)) (k : String) :
    lastLookup (e :: t) k =
      match lastLookup t k with
      | some v => some v
      | none => if e.1 = k then some e.2 else none := rfl

theorem lastLookup_append_of_isSome {l₂ : List (String × α)} {k : String} {v : α}
    (l₁ : List (String × α)) (h : lastLookup l₂ k = some v) :
    lastLookup (l₁ ++ l₂) k = some v := by
  induction l₁ with
  | nil => simpa using h
  | cons e t ih => simp [lastLookup_cons, ih]

theorem lastLookup_append_of_none {l₂ : List (String × α)} {k : String}
    (l₁ : List (String × α)) (h : lastLookup l₂ k = none) :
    lastLookup (l₁ ++ l₂) k = lastLookup l₁ k := by
  induction l₁ with
  | nil => simpa using h
  | cons e t ih => simp [lastLookup_cons, ih]

theorem keyMem_cons (e : String × List Record) (t : Registry) (k : String) :
    keyMem (e :: t) k = (decide (e.1 = k) || keyMem t k) := by
  simp [keyMem, List.any_cons]

theorem keyMem_iff_isSome (reg : Registry) (k : String) :
    keyMem reg k = true ↔ (lastLookup reg k).isSome = true := by
  induction reg with
  | nil => simp [keyMem, lastLookup_nil]
  | cons e t ih =>
    rw [keyMem_cons, lastLookup_cons]
    cases h : lastLookup t k with
    | some v =>
      have ht : keyMem t k = true := ih.mpr (by rw [h]; rfl)
      simp [ht]
    | none =>
      have ht : keyMem t k = false := by
        cases hkm : keyMem t k
        · rfl
        · have hsome := ih.mp hkm
          rw [h] at hsome
          simp at hsome
      by_cases he : e.1 = k <;> simp [ht, he]

theorem lastLookup_appendTo_same (reg : Registry) (k : String) (r : Record) :
    lastLookup (appendTo reg k r) k = (lastLookup reg k).map (fun l => l ++ [r]) := by
  induction reg with
  | nil => rfl
  | cons e t ih =>
    cases h : lastLookup t k with
    | some l => simp [appendTo, lastLookup_cons, h] at ih ⊢; simp [ih]
    | none =>
      simp only [appendTo, List.map_cons] at ih ⊢
      by_cases he : e.1 = k <;> simp [lastLookup_cons, h, he, ih]

theorem lastLookup_appendTo_ne (reg : Registry) {k k' : String} (r : Record)
    (h : k' ≠ k) :
    lastLookup (appendTo reg k r) k' = lastLookup reg k' := by
  induction reg with
  | nil => rfl
  | cons e t ih =>
    have hkk : ¬(k = k') := fun hk => h hk.symm
    simp only [appendTo, List.map_cons] at ih ⊢
    by_cases he : e.1 = k
    · simp [lastLookup_cons, he, ih, hkk]
    · simp [lastLookup_cons, he, ih]

theorem lastLookup_resolveKey_same (reg : Registry) (k : String) :
    lastLookup (resolveKey reg k) k = some (streamOf reg k) := by
  by_cases h : keyMem reg k = true
  · have hs := (keyMem_iff_isSome reg k).mp h
    cases hv : lastLookup reg k with
    | none => rw [hv] at hs; simp at hs
    | some l => simp [resolveKey, h, streamOf, hv]
  · have hs : lastLookup reg k = none := by
      cases hv : lastLookup reg k with
      | none => rfl
      | some l =>
        exact absurd ((keyMem_iff_isSome reg k).mpr (by simp [hv])) h
    have hone : lastLookup [(k, ([] : List Record))] k = some [] := by
      simp [lastLookup_cons, lastLookup_nil]
    simp [resolveKey, h, streamOf, hs, lastLookup_append_of_isSome reg hone]

theorem lastLookup_resolveKey_ne (reg : Registry) {k k' : String} (h : k' ≠ k) :
    lastLookup (resolveKey reg k) k' = lastLookup reg k' := by
  by_cases hm : keyMem reg k = true
  · simp [resolveKey, hm]
  · have hkk : ¬(k = k') := fun hk => h hk.symm
    have hone : lastLookup [(k, ([] : List Record))] k' = none := by
      simp [lastLookup_cons, lastLookup_nil, hkk]
    simp [resolveKey, hm, lastLookup_append_of_none reg hone]

theorem streamOf_writeTo_same (reg : Registry) (k : String) (r : Record) :
    streamOf (writeTo reg k r) k = streamOf reg k ++ [r] := by
  simp [writeTo, streamOf, lastLookup_appendTo_same, lastLookup_resolveKey_same]

theorem streamOf_writeTo_ne (reg : Registry) {k k' : String} (r : Record)
    (h : k' ≠ k) :
    streamOf (writeTo reg k r) k' = streamOf reg k' := by
  simp [writeTo, streamOf, lastLookup_appendTo_ne _ _ h, lastLookup_resolveKey_ne _ h]

end LookupLemmas

section RegistryKeys

theorem keyMem_iff_mem_regKeys (reg : Registry) (k : String) :
    keyMem reg k = true ↔ k ∈ regKeys reg := by
  simp [keyMem, List.any_eq_true, regKeys, List.mem_map]

theorem regKeys_resolveKey (reg : Registry) (k : String) :
    regKeys (resolveKey reg k) = if keyMem reg k then regKeys reg else regKeys reg ++ [k] := by
  by_cases h : keyMem reg k = true <;> simp [resolveKey, regKeys, h]

theorem regKeys_resolveKey_nodup (reg : Registry) (k : String)
    (h : (regKeys reg).Nodup) : (regKeys (resolveKey reg k)).Nodup := by
  rw [regKeys_resolveKey]
  by_cases hm : keyMem reg k = true
  · simpa [hm]
  · have hk : k ∉ regKeys reg := fun hmem =>
      hm ((keyMem_iff_mem_regKeys reg k).mpr hmem)
    simp only [hm, if_neg, Bool.false_eq_true, if_false]
    exact ((List.perm_append_singleton k (regKeys reg)).nodup_iff).mpr
      (List.nodup_cons.mpr ⟨hk, h⟩)

theorem mem_regKeys_resolveKey (reg : Registry) (k k' : String) :
    k' ∈ regKeys (resolveKey reg k) ↔ k' ∈ regKeys reg ∨ k' = k := by
  rw [regKeys_resolveKey]
  by_cases hm : keyMem reg k = true
  · simp only [hm, if_true]
    constructor
    · exact Or.inl
    · rintro (h | rfl)
      · exact h
      · exact (keyMem_iff_mem_regKeys reg k').mp hm
  · simp [hm]

theorem regKeys_foldl_resolveKey (ks : List String) (reg : Registry)
    (h : (regKeys reg).Nodup) :
    (regKeys (ks.foldl resolveKey reg)).Nodup ∧
      (∀ k, k ∈ regKeys (ks.foldl resolveKey reg) ↔ k ∈ regKeys reg ∨ k ∈ ks) := by
  induction ks generalizing reg with
  | nil => simpa using h
  | cons c t ih =>
    obtain ⟨h1, h2⟩ := ih (resolveKey reg c) (regKeys_resolveKey_nodup reg c h)
    refine ⟨h1, fun k => ?_⟩
    rw [List.foldl_cons, h2 k, mem_regKeys_resolveKey]
    constructor
    · rintro ((hk | rfl) | hk)
      · exact Or.inl hk
      · exact Or.inr (List.mem_cons_self _ _)
      · exact Or.inr (List.mem_cons_of_mem _ hk)
    · rintro (hk | hk)
      · exact Or.inl (Or.inl hk)
      · rcases List.mem_cons.mp hk with rfl | hk
        · exact Or.inl (Or.inr rfl)
        · exact Or.inr hk

end RegistryKeys

section DriverLemmas

theorem streamOf_stepRead (bs : List String) (st : DriverState) (r : Record)
    (k : String) :
    streamOf (stepRead bs st r).registry k =
      if routeOf bs r = some k then streamOf st.registry k ++ [r]
      else streamOf st.registry k := by
  cases hr : routeOf bs r with
  | none => simp [stepRead, hr]
  | some k0 =>
    by_cases hk : k0 = k
    · subst hk
      simp [stepRead, hr, streamOf_writeTo_same]
    · have hne : ¬(some k0 = some (α := String) k) := by simpa using hk
      simp only [stepRead, hr, hne, if_false]
      exact streamOf_writeTo_ne _ _ (fun h => hk h.symm)

theorem observed_stepRead (bs : List String) (st : DriverState) (r : Record) :
    (stepRead bs st r).observed = st.observed ++ [r] := by
  cases hr : routeOf bs r <;> simp [stepRead, hr]

theorem readCount_stepRead (bs : List String) (st : DriverState) (r : Record) :
    (stepRead bs st r).readCount = st.readCount + 1 := by
  cases hr : routeOf bs r <;> simp [stepRead, hr]

theorem streamOf_foldl (bs : List String) (input : List Record) (st : DriverState)
    (k : String) :
    streamOf ((input.foldl (stepRead bs) st)).registry k =
      streamOf st.registry k
        ++ input.filter (fun r => decide (routeOf bs r = some k)) := by
  induction input generalizing st with
  | nil => simp
  | cons r t ih =>
    rw [List.foldl_cons, ih, streamOf_stepRead]
    by_cases hr : routeOf bs r = some k <;> simp [hr, List.filter_cons]

theorem observed_foldl (bs : List String) (input : List Record) (st : DriverState) :
    (input.foldl (stepRead bs) st).observed = st.observed ++ input := by
  induction input generalizing st with
  | nil => simp
  | cons r t ih => simp [List.foldl_cons, ih, observed_stepRead]

theorem readCount_foldl (bs : List String) (input : List Record) (st : DriverState) :
    (input.foldl (stepRead bs) st).readCount = st.readCount + input.length := by
  induction input generalizing st with
  | nil => simp
  | cons r t ih =>
    rw [List.foldl_cons, ih, readCount_stepRead]
    simp [Nat.add_comm, Nat.add_assoc, Nat.add_left_comm]

theorem runAux_map_ok (bs : List String) (cr : String → Bool) (pre : List Record)
    (rest : List (Except Unit Record)) (st : DriverState) :
    runAux bs cr st (pre.map Except.ok ++ rest) =
      runAux bs cr (pre.foldl (stepRead bs) st) rest := by
  induction pre generalizing st with
  | nil => rfl
  | cons r t ih => simp [runAux, ih]

end DriverLemmas

/-! Concrete inputs used by the witnesses and the counterexamples: a record
tagged with an allow-listed barcode, and an untagged (unmapped) record. -/

def rBw : Record :=
  ⟨some "1", 5, 10, 60, 0, "ACGT", [30, 30, 30, 30], [("CB", TagValue.str "AAAC-1")]⟩

def rUw : Record := ⟨none, 0, 0, 0, 4, "CCCC", [2, 2, 2, 2], []⟩

def hdrW : List (String × Nat) := [("1", 100)]

/-- C1: for every record, exactly one of three outcomes holds, decided in
order: a record whose `CB` tag value is in the barcode set is appended to
exactly the stream keyed by that literal barcode string (every other
stream is unchanged); a record whose `CB` value is not in the set is
written to no stream; a record with no `CB` tag is appended to exactly
the stream keyed `"undetermined"`.  The first conjunct shows one step of
the loop changes at most the single stream named by `routeOf`, so no
record is ever written to two streams. -/
theorem routing_exactly_one (bs : List String) (r : Record) (st : DriverState) :
    (∀ k, streamOf (stepRead bs st r).registry k =
        if routeOf bs r = some k then streamOf st.registry k ++ [r]
        else streamOf st.registry k) ∧
    (∀ s, lastLookup r.tags "CB" = some (TagValue.str s) → s ∈ bs →
        routeOf bs r = some s) ∧
    (∀ v, lastLookup r.tags "CB" = some v → memBarcodes v bs = false →
        routeOf bs r = none) ∧
    (lastLookup r.tags "CB" = none → routeOf bs r = some "undetermined") := by
  refine ⟨fun k => streamOf_stepRead bs st r k, ?_, ?_, ?_⟩
  · intro s h hm
    simp [routeOf, h, hm]
  · intro v h hm
    cases v with
    | str s =>
      simp only [memBarcodes, decide_eq_false_iff_not] at hm
      simp [routeOf, h, hm]
    | int n => simp [routeOf, h]
    | arr ns => simp [routeOf, h]
  · intro h
    simp [routeOf, h]

theorem routing_exactly_one_witness :
    streamOf (stepRead ["AAAC-1"] initState rBw).registry "AAAC-1" =
      (if routeOf ["AAAC-1"] rBw = some "AAAC-1"
        then streamOf initState.registry "AAAC-1" ++ [rBw]
        else streamOf initState.registry "AAAC-1") ∧
    routeOf ["AAAC-1"] rBw = some "AAAC-1" :=
  ⟨(routing_exactly_one ["AAAC-1"] rBw initState).1 "AAAC-1",
   (routing_exactly_one ["AAAC-1"] rBw initState).2.1 "AAAC-1" (by decide)
     (by decide)⟩

/-- C2: evaluation of the close loop of lines 114–119 at a registry with
two handles whose first close raises.  The bare `except` handler itself
raises `TypeError` (string concatenated with a file object; the
`warnings` module is not callable either), so the loop aborts: the
second handle's close is never attempted, contradicting the claimed
best-effort drain.  The intent of the `try`/`except` (and §4.4 of the
spec) is clearly to log and continue, so this is a defect of the code. -/
theorem close_loop_aborts_on_failed_close :
    closeLoop [⟨"a", true⟩, ⟨"b", false⟩] = (["a"], some "TypeError") ∧
    "b" ∉ (closeLoop [⟨"a", true⟩, ⟨"b", false⟩]).1 := by
  exact ⟨rfl, by decide⟩

/-- C3 counterexample: a pass whose first record routes to
`"undetermined"` and whose second record fails to decode.  A stream was
created (`regKeys` is nonempty), the decode error propagates, and yet no
close was attempted: the close loop of lines 114–119 sits after the
`for` loop, not in a `finally`, so the claim that the driver finalizes
every opened stream before the error propagates is false. -/
theorem fatal_decode_skips_finalize_counterexample :
    regKeys (splitBamRun [] (fun _ => false)
        [Except.ok rUw, Except.error ()]).finalState.registry = ["undetermined"] ∧
    (splitBamRun [] (fun _ => false)
        [Except.ok rUw, Except.error ()]).closeAttempted = [] ∧
    (splitBamRun [] (fun _ => false)
        [Except.ok rUw, Except.error ()]).err = some RunError.decodeError :=
  ⟨rfl, rfl, rfl⟩

/-- C3 amended: when a record fails to decode mid-pass, the error
propagates immediately with *no* output stream closed — the close loop
runs only after a fully successful pass.  The driver state (streams and
records written by the completed iterations) is exactly that of the pass
over the successfully decoded prefix: already-written output is
retained, not rolled back, but the handles are left open. -/
theorem fatal_decode_leaves_streams_open (bs : List String) (cr : String → Bool)
    (pre : List Record) (rest : List (Except Unit Record)) :
    (splitBamRun bs cr
        (pre.map Except.ok ++ Except.error () :: rest)).closeAttempted = [] ∧
    (splitBamRun bs cr
        (pre.map Except.ok ++ Except.error () :: rest)).err
      = some RunError.decodeError ∧
    (splitBamRun bs cr
        (pre.map Except.ok ++ Except.error () :: rest)).finalState
      = splitBamPass bs pre := by
  unfold splitBamRun splitBamPass fetchLinear
  rw [runAux_map_ok]
  exact ⟨rfl, rfl, rfl⟩

/-- C4: stream resolution is memoized.  Resolving a key already in the
registry changes nothing (the existing handle is returned, no stream is
created); over a whole pass the registry ends with no duplicate keys,
holds exactly the keys that were resolved, and its size is exactly the
number of distinct routing keys encountered — never more. -/
theorem stream_resolution_memoized :
    (∀ reg k, keyMem reg k = true → resolveKey reg k = reg) ∧
    (∀ ks : List String,
      (regKeys (resolveAll ks)).Nodup ∧
      (∀ k, k ∈ regKeys (resolveAll ks) ↔ k ∈ ks) ∧
      (resolveAll ks).length = ks.toFinset.card) := by
  constructor
  · intro reg k h
    simp [resolveKey, h]
  · intro ks
    obtain ⟨h1, h2⟩ := regKeys_foldl_resolveKey ks [] (by simp [regKeys])
    have hmem : ∀ k, k ∈ regKeys (resolveAll ks) ↔ k ∈ ks := by
      intro k
      simpa [regKeys, resolveAll] using h2 k
    refine ⟨h1, hmem, ?_⟩
    have hfin : (regKeys (resolveAll ks)).toFinset = ks.toFinset := by
      ext a
      simp only [List.mem_toFinset]
      exact hmem a
    calc (resolveAll ks).length = (regKeys (resolveAll ks)).length := by
          simp [regKeys]
      _ = (regKeys (resolveAll ks)).toFinset.card :=
          (List.toFinset_card_of_nodup h1).symm
      _ = ks.toFinset.card := by rw [hfin]

theorem stream_resolution_memoized_witness :
    resolveKey [("k1", [])] "k1" = [("k1", [])] ∧
    (resolveAll ["k1", "k2", "k1"]).length
      = (["k1", "k2", "k1"] : List String).toFinset.card :=
  ⟨stream_resolution_memoized.1 [("k1", [])] "k1" (by decide),
   (stream_resolution_memoized.2 ["k1", "k2", "k1"]).2.2⟩

/-- C5: in the linear full-stream mode (`for read in self.bam.fetch()`),
the driver iterates every record of the input in storage order exactly
once — the loop's iteration trace is the input itself, and `read_count`
ends equal to the input length — with no dependence on any record's
coordinate or mapping status. -/
theorem linear_pass_iterates_each_once (bs : List String) (input : List Record) :
    (splitBamPass bs input).observed = fetchLinear input ∧
    (splitBamPass bs input).readCount = input.length := by
  unfold splitBamPass fetchLinear
  constructor
  · simpa [initState] using observed_foldl bs input initState
  · simpa [initState] using readCount_foldl bs input initState

/-- C6: routing is lossless — any record found in an output stream is
contentwise identical (reference, position, mapping quality, flags,
sequence, qualities, full tag list) to a record decoded from the input,
and it was routed to exactly that stream's key. -/
theorem routed_record_content_unchanged (bs : List String) (input : List Record)
    (k : String) (r : Record)
    (h : r ∈ streamOf (splitBamPass bs input).registry k) :
    ∃ orig, orig ∈ input ∧ orig.refName = r.refName ∧ orig.pos = r.pos ∧
      orig.mapq = r.mapq ∧ orig.flag = r.flag ∧ orig.seq = r.seq ∧
      orig.qual = r.qual ∧ orig.tags = r.tags ∧ routeOf bs orig = some k := by
  have hs : streamOf (splitBamPass bs input).registry k =
      input.filter (fun r => decide (routeOf bs r = some k)) := by
    unfold splitBamPass fetchLinear
    simpa using streamOf_foldl bs input initState k
  rw [hs] at h
  have hmem := List.mem_filter.mp h
  exact ⟨r, hmem.1, rfl, rfl, rfl, rfl, rfl, rfl, by simpa using hmem.2⟩

theorem routed_record_content_unchanged_witness :
    ∃ orig, orig ∈ [rBw] ∧ orig.refName = rBw.refName ∧ orig.pos = rBw.pos ∧
      orig.mapq = rBw.mapq ∧ orig.flag = rBw.flag ∧ orig.seq = rBw.seq ∧
      orig.qual = rBw.qual ∧ orig.tags = rBw.tags ∧
      routeOf ["AAAC-1"] orig = some "AAAC-1" :=
  routed_record_content_unchanged ["AAAC-1"] [rBw] "AAAC-1" rBw (by decide)

/-- C7: in the region-bounded mode, for each reference name of the
caller-supplied list, in the caller-supplied order, `main` traverses
exactly the records overlapping `[0, reference_length)` of that
reference — `reference_length` being the length the input header's
reference table records for the name — before moving to the next
reference.  The hypothesis is that every requested name is in the
header's table (a missing name is a `KeyError` on `self.chr_lengths`). -/
theorem region_traversal_matches_header (hdr : List (String × Nat))
    (cs : List String) (input : List Record)
    (h : ∀ c ∈ cs, (lastLookup hdr c).isSome = true) :
    mainTraversal hdr cs input = some (specRegionTraversal hdr cs input) := by
  induction cs with
  | nil => rfl
  | cons c t ih =>
    have hc := h c (List.mem_cons_self c t)
    cases hlen : lastLookup hdr c with
    | none =>
      rw [hlen] at hc
      simp at hc
    | some len =>
      have ht := ih (fun c hc => h c (List.mem_cons_of_mem _ hc))
      simp [mainTraversal, specRegionTraversal, hlen, ht]

theorem region_traversal_matches_header_witness :
    mainTraversal hdrW ["1"] [rBw, rUw]
      = some (specRegionTraversal hdrW ["1"] [rBw, rUw]) :=
  region_traversal_matches_header hdrW ["1"] [rBw, rUw] (by decide)

/-- C8: the pass is a strictly sequential fold, so every destination
stream ends holding exactly the subsequence of input records routed to
it, in the input's relative order (`List.filter` of the input by the
routing decision). -/
theorem per_stream_order_preserved (bs : List String) (input : List Record)
    (k : String) :
    streamOf (splitBamPass bs input).registry k =
      input.filter (fun r => decide (routeOf bs r = some k)) := by
  unfold splitBamPass fetchLinear
  simpa using streamOf_foldl bs input initState k

/-- C9: the barcode set is exactly the distinct first-column values of
all rows of the headerless delimited table: membership is an exact
string match against some row's first column, the set holds no
duplicates, and the very first row contributes (no header skipped). -/
theorem barcode_set_from_first_column (rows : List (String × List String)) :
    (∀ b, b ∈ getBarcodes rows ↔ ∃ row, row ∈ rows ∧ row.1 = b) ∧
    (getBarcodes rows).Nodup ∧
    (∀ e : String × List String, e.1 ∈ getBarcodes (e :: rows)) := by
  refine ⟨fun b => ?_, ?_, fun e => ?_⟩
  · simp only [getBarcodes, List.mem_dedup, List.mem_map]
  · exact List.nodup_dedup _
  · simp [getBarcodes, List.mem_dedup, List.mem_map]

/-- C10: a falsy `chromosomes` constructor argument (`None` or the empty
list) makes the region-bounded traversal use the full ordered list of
the header's reference names — not the argument-parser default of
autosomes 1–22 plus `chrM`, and not an empty traversal — while a
non-empty argument is used as given. -/
theorem falsy_chromosomes_use_header_names (ns : List String) :
    chooseChromosomes none ns = ns ∧
    chooseChromosomes (some []) ns = ns ∧
    (∀ c cs, chooseChromosomes (some (c :: cs)) ns = c :: cs) ∧
    (ns ≠ [] → chooseChromosomes (some []) ns ≠ []) ∧
    (ns ≠ defaultChromosomes →
      chooseChromosomes (some []) ns ≠ defaultChromosomes) := by
  refine ⟨rfl, rfl, fun c cs => rfl, fun h => ?_, fun h => ?_⟩
  · simpa [chooseChromosomes] using h
  · simpa [chooseChromosomes] using h

theorem falsy_chromosomes_use_header_names_witness :
    chooseChromosomes none ["c1", "cX"] = ["c1", "cX"] ∧
    chooseChromosomes (some []) ["c1", "cX"] ≠ defaultChromosomes :=
  ⟨(falsy_chromosomes_use_header_names ["c1", "cX"]).1,
   (falsy_chromosomes_use_header_names ["c1", "cX"]).2.2.2.2 (by decide)⟩

end SplitBamModel
